import Mathlib

/-!
Verification of the repotronium dependency-analysis pipeline.

The definitions below are shallow embeddings of the TypeScript code in
`src/lib/dependency-analyzer.ts` and of the API route handlers
(`advanced-analysis`, `business-insights`).  File contents and paths are
modelled as `String` / `List Char`; the filesystem is an in-memory tree;
the JavaScript regular expressions used by the scanner are modelled by a
small executable backtracking matcher with the same leftmost / lazy /
greedy preference order.
-/

namespace Repotronium

/-- JS `\s` whitespace class (the characters relevant to source text). -/
def isWsChar (c : Char) : Bool :=
  c = ' ' || c = '\t' || c = '\n' || c = '\r' || c = '\x0b' || c = '\x0c'

/-- JS `String.prototype.trim`: strips whitespace from both ends. -/
def trimWs (s : List Char) : List Char :=
  ((s.dropWhile isWsChar).reverse.dropWhile isWsChar).reverse

/-- JS `String.prototype.includes` on character lists. -/
def containsSeq (hay needle : List Char) : Bool :=
  match hay with
  | [] => needle.isEmpty
  | _ :: t => needle.isPrefixOf hay || containsSeq t needle

/-- `String.includes` lifted to `String`. -/
def strIncludes (hay needle : String) : Bool :=
  containsSeq hay.data needle.data

/-- Node `path.extname(p).slice(1).toLowerCase()` as used throughout the
analyzer: the text after the last `.` of the basename (empty when the
basename has no dot, or only a leading dot), lower-cased. -/
def extOf (p : String) : String :=
  let b := (p.data.reverse.takeWhile (fun c => c ≠ '/')).reverse
  let revAfterDot := b.reverse.takeWhile (fun c => c ≠ '.')
  -- no dot at all, or the only dot is the basename's leading character
  if revAfterDot.length + 1 < b.length then
    String.mk (revAfterDot.reverse.map Char.toLower)
  else if revAfterDot.length + 1 = b.length ∧ b.head? ≠ some '.' then
    String.mk (revAfterDot.reverse.map Char.toLower)
  else
    ""

/-- `String.startsWith`, computed on the underlying character lists
(definitionally equal behaviour, kernel-reducible). -/
def strStartsWith (s p : String) : Bool :=
  p.data.isPrefixOf s.data

/-- A dependency edge `{from, to, type}` (`from` is a reserved word in
Lean, hence the `d` prefixes). -/
structure Dep where
  dfrom : String
  dto : String
  dtype : String
deriving DecidableEq, Repr

/-- The object handed to `generateDependencyGraph`: the scanner returns
`{modules, dependencies}`; a `none` dependencies field models a JS input
whose `dependencies` field is `null`/missing. -/
structure DepsObj where
  modules : List String
  dependencies : Option (List Dep)
deriving DecidableEq, Repr

structure GNode where
  id : String
  group : Nat
deriving DecidableEq, Repr

structure GLink where
  source : String
  target : String
  value : Nat
deriving DecidableEq, Repr

structure Graph where
  nodes : List GNode
  links : List GLink
deriving DecidableEq, Repr

/-- First-occurrence deduplication with the set of already-seen
elements: JS `Set` keeps insertion order. -/
def uniqueFirstAux (seen : List String) : List String → List String
  | [] => []
  | x :: xs =>
    if seen.contains x then uniqueFirstAux seen xs
    else x :: uniqueFirstAux (x :: seen) xs

/-- First-occurrence deduplication: JS `Set` keeps insertion order. -/
def uniqueFirst (l : List String) : List String :=
  uniqueFirstAux [] l

/-- Group table of `generateDependencyGraph`: extension buckets 1–9,
default 1. -/
def groupFor (file : String) : Nat :=
  let ext := extOf file
  if ext = "js" ∨ ext = "jsx" then 1
  else if ext = "ts" ∨ ext = "tsx" then 2
  else if ext = "css" ∨ ext = "scss" ∨ ext = "less" then 3
  else if ext = "html" ∨ ext = "htm" then 4
  else if ext = "json" ∨ ext = "yaml" ∨ ext = "yml" then 5
  else if ext = "md" ∨ ext = "txt" then 6
  else if ext = "py" then 7
  else if ext = "java" then 8
  else if ext = "go" then 9
  else 1

/-- The fixed placeholder graph returned on malformed input. -/
def placeholderGraph : Graph :=
  { nodes := [⟨"file1.js", 1⟩, ⟨"file2.js", 1⟩, ⟨"file3.css", 3⟩, ⟨"file4.tsx", 2⟩],
    links := [⟨"file1.js", "file2.js", 1⟩, ⟨"file1.js", "file3.css", 1⟩,
              ⟨"file2.js", "file4.tsx", 1⟩] }

/-- `generateDependencyGraph`: placeholder on null/missing input, else
nodes = deduplicated from/to strings of the edges (grouped by extension)
and one weight-1 link per edge. -/
def generateDependencyGraph : Option DepsObj → Graph
  | none => placeholderGraph
  | some o =>
    match o.dependencies with
    | none => placeholderGraph
    | some deps =>
      let uniqueFiles := uniqueFirst (deps.flatMap (fun d => [d.dfrom, d.dto]))
      { nodes := uniqueFiles.map (fun f => ⟨f, groupFor f⟩),
        links := deps.map (fun d => ⟨d.dfrom, d.dto, 1⟩) }

/-! ### The `business-insights` handler's catch block -/

/-- The catch block of `pages/api/business-insights.ts`: maps an error
message to the HTTP status code and error string sent to the caller. -/
def businessInsightsCatch (msg : String) : Nat × String :=
  if strIncludes msg "API key" then
    (500, "OpenAI API key is invalid or has expired. Please check your API key configuration.")
  else if strIncludes msg "timeout" then
    (500, "The request to generate business insights timed out. Please try again with a smaller repository.")
  else if strIncludes msg "rate limit" then
    (429, "OpenAI rate limit reached. Please try again later.")
  else
    (500, if msg = "" then "Failed to generate business insights" else msg)

/-! ### The `advanced-analysis` handler's temp-directory lifecycle -/

/-- Request-scoped state: whether the per-request checkout directory is
currently on disk, and the handler's `repoDir` variable (initialised to
the empty string). -/
structure ReqState where
  dirOnDisk : Bool
  repoDirVar : String
deriving DecidableEq, Repr

/-- `cloneRepository`: `createRepoDirectory` creates the directory on
disk, then `git clone` either succeeds (returning the path) or throws —
after the directory was already created. -/
def cloneRepositoryM (cloneOk : Bool) (st : ReqState) : ReqState × Option String :=
  let st1 := { st with dirOnDisk := true }
  if cloneOk then (st1, some "temp/owner_repo") else (st1, none)

/-- The `finally` block: `cleanupTempFiles(repoDir)` runs only when the
`repoDir` variable is truthy (non-empty). -/
def finallyCleanup (st : ReqState) : ReqState :=
  if st.repoDirVar ≠ "" then { st with dirOnDisk := false } else st

/-- The `advanced-analysis` handler around its try/finally: clone (which
may throw after creating the directory), then the analysis pipeline
(which may throw), then the `finally` cleanup.  Returns the state after
the request completes. -/
def advancedAnalysisRun (cloneOk restOk : Bool) : ReqState :=
  let st0 : ReqState := ⟨false, ""⟩
  let (st1, cloned) := cloneRepositoryM cloneOk st0
  match cloned with
  | none => finallyCleanup st1
  | some d =>
    let st2 := { st1 with repoDirVar := d }
    -- the analysis pipeline runs here; whether it succeeds (`restOk`) or
    -- throws, control reaches the same `finally` block
    let _ := restOk
    finallyCleanup st2

/-! ### A small backtracking matcher for the scanner's regular expressions

Each import/include pattern of `analyzeFileRelationships` is a sequence
of the atoms below.  The matcher explores alternatives depth-first in
the JS preference order (lazy quantifiers prefer shorter, greedy prefer
longer, `(x)?` prefers present), so the first success is the JS match.
At most one capturing group per pattern is tracked — exactly the group
the scanner reads (`result[1]`). -/

inductive RAtom where
  /-- a literal character sequence -/
  | lit (s : List Char)
  /-- `\s+` (greedy) -/
  | wsPlus
  /-- `\s*` (greedy) -/
  | wsStar
  /-- a character class such as `['"]` -/
  | cls (cs : List Char)
  /-- `.*?` (lazy, not matching line terminators), uncaptured -/
  | anyLazy
  /-- `(.*?)` captured as group 1 -/
  | capLazy
  /-- `([\s\S]*?)` captured as group 1 (matches newlines) -/
  | capLazyNL
  /-- `(x)?` captured as group 1 (greedy: present first) -/
  | optCapLit (s : List Char)
deriving DecidableEq, Repr

/-- JS `.` matches anything but a line terminator. -/
def isDotChar (c : Char) : Bool := c ≠ '\n' && c ≠ '\r'

/-- Run a pattern at the start of `s`.  Returns the group-1 capture (if
any group matched) and the text remaining after the match. -/
def runPat : List RAtom → List Char → Option (Option (List Char) × List Char)
  | [], s => some (none, s)
  | .lit l :: as, s =>
    if l.isPrefixOf s then runPat as (s.drop l.length) else none
  | .wsPlus :: as, s =>
    let m := (s.takeWhile isWsChar).length
    ((List.range m).map (fun x => m - x)).findSome? (fun k => runPat as (s.drop k))
  | .wsStar :: as, s =>
    let m := (s.takeWhile isWsChar).length
    ((List.range (m + 1)).map (fun x => m - x)).findSome? (fun k => runPat as (s.drop k))
  | .cls cs :: as, s =>
    match s with
    | [] => none
    | c :: rest => if cs.contains c then runPat as rest else none
  | .anyLazy :: as, s =>
    let lim := (s.takeWhile isDotChar).length
    (List.range (lim + 1)).findSome? (fun k => runPat as (s.drop k))
  | .capLazy :: as, s =>
    let lim := (s.takeWhile isDotChar).length
    (List.range (lim + 1)).findSome? (fun k =>
      (runPat as (s.drop k)).map (fun r => (some (s.take k), r.2)))
  | .capLazyNL :: as, s =>
    (List.range (s.length + 1)).findSome? (fun k =>
      (runPat as (s.drop k)).map (fun r => (some (s.take k), r.2)))
  | .optCapLit l :: as, s =>
    if l.isPrefixOf s then
      match runPat as (s.drop l.length) with
      | some (_, rest) => some (some l, rest)
      | none => (runPat as s).map (fun r => (r.1, r.2))
    else
      runPat as s

/-- Leftmost match: try positions left to right (what `RegExp.exec` and
each step of a `g`-flag scan do).  Returns the match length measured
from the start of `s`'s scanned position, the capture, and the rest. -/
def firstMatch (p : List RAtom) : List Char → Option (Nat × Option (List Char) × List Char)
  | [] =>
    (runPat p []).map (fun r => (0, r.1, r.2))
  | c :: s' =>
    match runPat p (c :: s') with
    | some (cap, rest) => some ((c :: s').length - rest.length, cap, rest)
    | none =>
      (firstMatch p s').map (fun r => (r.1, r.2.1, r.2.2))

/-- The `g`-flag scan of `content.match(pattern, 'g')` followed by the
per-match `exec` that the scanner performs: the group-1 capture of each
successive non-overlapping match (re-running `exec` on a matched
substring reproduces the capture of the scan that produced it).  An
empty match advances one character, as JS does. -/
def gCaptures (p : List RAtom) : Nat → List Char → List (Option (List Char))
  | 0, _ => []
  | fuel + 1, s =>
    match firstMatch p s with
    | none => []
    | some (len, cap, rest) =>
      cap :: gCaptures p fuel (if len = 0 then rest.drop 1 else rest)

/-! ### The scanner's per-language pattern table -/

def jsPatterns : List (List RAtom) :=
  [ [.lit "import".data, .wsPlus, .anyLazy, .lit "from".data, .wsPlus,
     .cls ['\'', '"'], .capLazy, .cls ['\'', '"']],
    [.lit "require(".data, .cls ['\'', '"'], .capLazy, .cls ['\'', '"'], .lit ")".data] ]

def pyPatterns : List (List RAtom) :=
  [ [.lit "import".data, .wsPlus, .capLazy],
    [.lit "from".data, .wsPlus, .capLazy, .wsPlus, .lit "import".data] ]

def javaPatterns : List (List RAtom) :=
  [ [.lit "import".data, .wsPlus, .capLazy, .lit ";".data] ]

def phpPatterns : List (List RAtom) :=
  [ [.lit "require".data, .optCapLit "_once".data, .wsStar, .lit "(".data,
     .cls ['\'', '"'], .anyLazy, .cls ['\'', '"'], .lit ")".data],
    [.lit "include".data, .optCapLit "_once".data, .wsStar, .lit "(".data,
     .cls ['\'', '"'], .anyLazy, .cls ['\'', '"'], .lit ")".data] ]

def rbPatterns : List (List RAtom) :=
  [ [.lit "require".data, .wsPlus, .cls ['\'', '"'], .capLazy, .cls ['\'', '"']],
    [.lit "load".data, .wsPlus, .cls ['\'', '"'], .capLazy, .cls ['\'', '"']],
    [.lit "import".data, .wsPlus, .cls ['\'', '"'], .capLazy, .cls ['\'', '"']],
    [.lit "include".data, .wsPlus] ]

def goPatterns : List (List RAtom) :=
  [ [.lit "import".data, .wsPlus, .lit "(".data, .capLazyNL, .lit ")".data],
    [.lit "import".data, .wsPlus, .cls ['"', '\''], .capLazy, .cls ['"', '\'']] ]

/-- The `patterns` record of `analyzeFileRelationships`, keyed by
extension; `none` for extensions with no import-extraction patterns. -/
def patternsFor (ext : String) : Option (List (List RAtom)) :=
  if ext = "js" ∨ ext = "ts" ∨ ext = "jsx" ∨ ext = "tsx" then some jsPatterns
  else if ext = "py" then some pyPatterns
  else if ext = "java" then some javaPatterns
  else if ext = "php" then some phpPatterns
  else if ext = "rb" then some rbPatterns
  else if ext = "go" then some goPatterns
  else none

/-! ### Filesystem model and the relationship scanner -/

/-- An in-memory checkout: a file with content, or a directory. -/
inductive FSEntry where
  | file (name : String) (content : String)
  | dir (name : String) (children : List FSEntry)
deriving Repr

/-- The traversal's extension allow-list (`sourceExtensions`). -/
def sourceExtensions : List String :=
  ["js", "jsx", "ts", "tsx", "py", "java", "rb", "go",
   "c", "cpp", "h", "hpp", "cs", "php", "swift", "kt",
   "rs", "dart", "sh", "bash", "zsh", "md", "json",
   "yaml", "yml", "xml", "html", "css", "scss", "less"]

/-- Join a relative-path accumulator with an entry name. -/
def joinRel (pre name : String) : String :=
  if pre = "" then name else pre ++ "/" ++ name

/-- All import targets the scanner extracts from one file's content with
the given pattern list (the body of `processFile`'s pattern loop). -/
def extractTargets (ps : List (List RAtom)) (content : List Char) : List String :=
  ps.flatMap (fun p =>
    (gCaptures p content.length content).filterMap (fun cap =>
      match cap with
      | none => none
      | some cs =>
        if cs = [] then none  -- `if (result && result[1])`: empty is falsy
        else
          let ip := trimWs cs
          -- `if (!startsWith('.') && !startsWith('/') && !includes(':')) continue`
          if ip.head? = some '.' ∨ ip.head? = some '/' ∨ containsSeq ip [':'] then
            some (String.mk ip)
          else none))

/-- `processFile`: only when the extension has patterns is the file
recorded, and its extracted targets become `import` edges. -/
def processFileM (relPath : String) (ext : String) (content : String) :
    List String × List Dep :=
  match patternsFor ext with
  | some ps =>
    ([relPath], (extractTargets ps content.data).map (fun t => ⟨relPath, t, "import"⟩))
  | none => ([], [])

/-- Directories pruned by `processDirectory`. -/
def prunedDirs : List String := ["node_modules", "dist", "build", "obj", "target"]

mutual

/-- `processDirectory`'s treatment of a single directory item (`pre` is
the relative path of the containing directory w.r.t. the traversal
base). -/
def processEntry (pre : String) : FSEntry → List String × List Dep
  | .file name content =>
    if strStartsWith name "." && name ≠ ".gitignore" then ([], [])
    else
      let rel := joinRel pre name
      let ext := extOf name
      if sourceExtensions.contains ext || ext = "" then
        processFileM rel ext content
      else
        ([rel], [])  -- at least record non-source files in the files list
  | .dir name children =>
    if strStartsWith name "." && name ≠ ".gitignore" then ([], [])
    else if prunedDirs.contains name then ([], [])
    else processList (joinRel pre name) children

def processList (pre : String) : List FSEntry → List String × List Dep
  | [] => ([], [])
  | e :: es =>
    let r := processEntry pre e
    let rs := processList pre es
    (r.1 ++ rs.1, r.2 ++ rs.2)

end

/-- Names whose presence marks a project root for the subdirectory
re-scan (`projectIndicators`). -/
def projectIndicators : List String :=
  ["package.json", "src", "public", "app", "lib", "components"]

def entryName : FSEntry → String
  | .file n _ => n
  | .dir n _ => n

/-- The `< 3 files` fallback: re-scan one level of subdirectories that
contain a project indicator, each relative to itself. -/
def subdirPass (root : List FSEntry) : List String × List Dep :=
  root.foldl (fun acc e =>
    match e with
    | .file _ _ => acc
    | .dir name children =>
      if strStartsWith name "." then acc
      else if name = "node_modules" ∨ name = "dist" ∨ name = "build" then acc
      else if projectIndicators.any (fun ind => children.any (fun c => entryName c = ind)) then
        let r := processList "" children
        (acc.1 ++ r.1, acc.2 ++ r.2)
      else acc) ([], [])

mutual

/-- `scanFiles`: the bare recursive listing used when the first passes
found nothing (hidden entries skipped, `node_modules`/`dist` pruned). -/
def scanEntry (pre : String) : FSEntry → List String
  | .file name _ =>
    if strStartsWith name "." then [] else [joinRel pre name]
  | .dir name children =>
    if strStartsWith name "." then []
    else if name = "node_modules" ∨ name = "dist" then []
    else scanList (joinRel pre name) children

def scanList (pre : String) : List FSEntry → List String
  | [] => []
  | e :: es => scanEntry pre e ++ scanList pre es

end

/-- The scanner's return value `{modules, dependencies}`. -/
structure ScanResult where
  modules : List String
  dependencies : List Dep
deriving DecidableEq, Repr

/-- The fixed example dataset substituted for an empty repository. -/
def exampleFiles : List String :=
  ["src/components/ExampleComponent.tsx",
   "src/utils/helpers.js",
   "src/pages/index.tsx",
   "src/lib/api.ts",
   "src/styles/global.css"]

def exampleDeps : List Dep :=
  [⟨"src/pages/index.tsx", "../components/ExampleComponent", "import"⟩,
   ⟨"src/pages/index.tsx", "../utils/helpers", "import"⟩,
   ⟨"src/components/ExampleComponent.tsx", "../lib/api", "import"⟩,
   ⟨"src/lib/api.ts", "../utils/helpers", "import"⟩]

/-- The synthetic `related` edges chaining every rescanned file to the
first. -/
def relatedChain : List String → List Dep
  | [] => []
  | f :: rest => rest.map (fun t => ⟨f, t, "related"⟩)

/-- `analyzeFileRelationships`: the main traversal, the `< 3 files`
subdirectory pass, the direct re-scan with synthetic edges, and the
example-dataset fallback, in the order the code applies them. -/
def analyzeFileRelationships (root : List FSEntry) : ScanResult :=
  let r1 := processList "" root
  let r2 := if r1.1.length < 3 then subdirPass root else ([], [])
  let files := r1.1 ++ r2.1
  let deps := r1.2 ++ r2.2
  if files.length = 0 then
    let found := scanList "" root
    if found.length > 0 then
      { modules := found, dependencies := deps ++ relatedChain found }
    else
      { modules := exampleFiles, dependencies := exampleDeps }
  else
    { modules := files, dependencies := deps }

/-! ### The complexity scorer (`analyzeFileComplexity`)

The pseudo-cyclomatic complexity is the number of matches of an
alternation of keyword literals under the `g` flag.  No alternative is a
prefix of another and no two alternatives agree up to the shorter
length, so the JS scan is: walk left to right, count a token wherever
one of the alternatives starts, and jump over it.  `cntF` is that scan
(with fuel, consumed one character or one token at a time). -/

def jsKeywords : List (List Char) :=
  ["if", "else", "for", "while", "switch", "case", "?", "&&", "||", "catch"].map String.data

def pyKeywords : List (List Char) :=
  ["if", "elif", "else", "for", "while", "except", "and", "or"].map String.data

/-- The alternative (if any) matching at the current position — `find?`
tries the alternation's branches in order, as JS does. -/
def tokAt (T : List (List Char)) (s : List Char) : Option (List Char) :=
  T.find? (fun t => t.isPrefixOf s)

def cntF (T : List (List Char)) : Nat → List Char → Nat
  | 0, _ => 0
  | _, [] => 0
  | fuel + 1, c :: s' =>
    match tokAt T (c :: s') with
    | some t => 1 + cntF T fuel ((c :: s').drop t.length)
    | none => cntF T fuel s'

/-- `content.match(keywordAlternation, 'g').length`. -/
def cnt (T : List (List Char)) (s : List Char) : Nat :=
  cntF T s.length s

/-- The `metrics.complexity` computed by `analyzeFileComplexity` for a
file with extension `ext` (zero for languages outside the three keyword
buckets). -/
def decisionCount (ext : String) (content : List Char) : Nat :=
  if ext = "js" ∨ ext = "ts" ∨ ext = "jsx" ∨ ext = "tsx" then cnt jsKeywords content
  else if ext = "py" then cnt pyKeywords content
  else if ext = "java" then cnt jsKeywords content
  else 0

/-- The metric fields of `analyzeFileComplexity` the claims are about
(the function/class pattern counts are independent of these and are not
modelled). -/
structure Metrics where
  lines : Nat
  characters : Nat
  complexity : Nat
deriving DecidableEq, Repr

def analyzeFileComplexityM (filePath : String) (content : String) : Metrics :=
  { lines := content.data.count '\n' + 1,
    characters := content.data.length,
    complexity := decisionCount (extOf filePath) content.data }

/-- Structural facts about a keyword alternation, all decidable on the
two concrete keyword lists.  They capture why the left-to-right token
scan is well behaved: alternatives are non-empty, short, none is a
prefix of another (so at most one matches at a position), a token
occurring inside another at a positive offset reaches exactly to its
end, `if` is the first alternative, no token ends in `i`, a token
containing `if` at a positive offset ends with it there, the text a
token carries before such an embedded `if` occurs inside no token at a
positive offset, and no token starts with any character strictly inside
that prefix text. -/
structure TokenFacts (T : List (List Char)) : Prop where
  ne : ∀ t ∈ T, t ≠ []
  len6 : ∀ t ∈ T, t.length ≤ 6
  nopre : ∀ t₁ ∈ T, ∀ t₂ ∈ T, t₁.isPrefixOf t₂ = true → t₁ = t₂
  subAligned : ∀ t ∈ T, ∀ t' ∈ T, ∀ j, j < 6 → 1 ≤ j →
    t'.isPrefixOf (t.drop j) = true → j + t'.length = t.length
  headIf : T.head? = some ['i', 'f']
  noEndI : ∀ t ∈ T, t.getLast? ≠ some 'i'
  ifInside : ∀ t ∈ T, ∀ j, j < 6 → 1 ≤ j →
    ['i', 'f'].isPrefixOf (t.drop j) = true → t.drop j = ['i', 'f']
  crossTake : ∀ t'' ∈ T, ∀ m, m < 6 → 1 ≤ m → t''.drop m = ['i', 'f'] →
    ∀ t ∈ T, ∀ j, j < 6 → 1 ≤ j → (t''.take m).isPrefixOf (t.drop j) = false
  headChar : ∀ t'' ∈ T, ∀ m, m < 6 → 1 ≤ m → t''.drop m = ['i', 'f'] →
    ∀ j, j < m → 1 ≤ j → ∀ t ∈ T, t.head? ≠ (t''.drop j).head?

/-! ### Concrete scenarios used by the claims -/

/-- The two-file project of the spec's end-to-end scenario, with `a.js`
containing the literal text `import './b'`. -/
def demoSideEffectImport : List FSEntry :=
  [.file "a.js" "import './b'", .file "b.js" ""]

/-- The same project with an import that carries a `from` clause. -/
def demoFromImport : List FSEntry :=
  [.file "a.js" "import x from './b'", .file "b.js" ""]

/-- Three import-bearing-extension files plus a stylesheet. -/
def demoWithCss : List FSEntry :=
  [.file "a.js" "", .file "b.js" "", .file "c.js" "", .file "style.css" "body { color: red }"]

/-- Wrap a scanner result the way the `advanced-analysis` handler hands
it to the graph formatter. -/
def toDepsObj (r : ScanResult) : DepsObj :=
  { modules := r.modules, dependencies := some r.dependencies }

/-- Whether a file with the given name and content occurs anywhere in
the tree. -/
def listHasFile (name content : String) : List FSEntry → Bool
  | [] => false
  | .file n c :: es => (n = name && c = content) || listHasFile name content es
  | .dir _ ch :: es => listHasFile name content ch || listHasFile name content es

end Repotronium

namespace Repotronium

/-! ## Theorems -/

/-- Membership in the deduplication with accumulator. -/
theorem mem_uniqueFirstAux (a : String) :
    ∀ (l seen : List String), a ∈ uniqueFirstAux seen l ↔ a ∈ l ∧ a ∉ seen := by
  intro l
  induction l with
  | nil => simp [uniqueFirstAux]
  | cons x xs ih =>
    intro seen
    rw [uniqueFirstAux]
    by_cases hx : seen.contains x
    · have hxseen : x ∈ seen := by simpa using hx
      rw [if_pos hx, ih]
      constructor
      · rintro ⟨h1, h2⟩; exact ⟨List.mem_cons_of_mem _ h1, h2⟩
      · rintro ⟨h1, h2⟩
        rcases List.mem_cons.mp h1 with rfl | h1
        · exact absurd hxseen h2
        · exact ⟨h1, h2⟩
    · have hxseen : x ∉ seen := by simpa using hx
      rw [if_neg hx]
      simp only [List.mem_cons, ih, List.mem_cons]
      constructor
      · rintro (rfl | ⟨h1, h2⟩)
        · exact ⟨Or.inl rfl, hxseen⟩
        · exact ⟨Or.inr h1, fun hs => h2 (Or.inr hs)⟩
      · rintro ⟨rfl | h1, h2⟩
        · exact Or.inl rfl
        · by_cases hax : a = x
          · exact Or.inl hax
          · exact Or.inr ⟨h1, fun hs => by rcases hs with hs | hs; exact hax hs; exact h2 hs⟩

/-- Membership in the insertion-order deduplication is membership in the
original list. -/
theorem mem_uniqueFirst (a : String) : ∀ l : List String, a ∈ uniqueFirst l ↔ a ∈ l := by
  intro l
  rw [uniqueFirst, mem_uniqueFirstAux]
  simp

/-- **C3.** For a checkout containing zero files the scanner's main
traversal and both rescans come up empty and the returned value is the
fixed literal example dataset, verbatim. -/
theorem emptyRepo_returns_example_dataset :
    processList "" ([] : List FSEntry) = ([], []) ∧
    subdirPass ([] : List FSEntry) = ([], []) ∧
    scanList "" ([] : List FSEntry) = [] ∧
    analyzeFileRelationships [] = { modules := exampleFiles, dependencies := exampleDeps } := by
  refine ⟨rfl, rfl, rfl, ?_⟩
  decide

/-- **C4 counterexample.** When the clone step itself fails, the
directory `createRepoDirectory` already created is *not* deleted: the
`finally` block sees the still-empty `repoDir` variable and skips
cleanup. -/
theorem cloneFailure_leaks_temp_dir :
    (advancedAnalysisRun false true).dirOnDisk = true ∧
    (advancedAnalysisRun false false).dirOnDisk = true := by
  decide

/-- **C4 (amended).** The temporary directory survives the request
exactly when the clone step failed: whenever the clone returned, the
`finally` path deletes the directory even if any later step errors. -/
theorem tempDir_deleted_iff_clone_succeeded :
    ∀ cloneOk restOk : Bool,
      (advancedAnalysisRun cloneOk restOk).dirOnDisk = !cloneOk := by
  intro cloneOk restOk
  cases cloneOk <;> cases restOk <;> decide

/-- **C6 counterexample.** The three recognised error substrings do
*not* map to three distinct HTTP status codes: `API key` and `timeout`
both yield 500 (only `rate limit` is distinct, with 429). -/
theorem errorSubstrings_not_three_distinct_statuses :
    (businessInsightsCatch "API key").1 = 500 ∧
    (businessInsightsCatch "timeout").1 = 500 ∧
    (businessInsightsCatch "rate limit").1 = 429 ∧
    ¬ ((businessInsightsCatch "API key").1 ≠ (businessInsightsCatch "timeout").1 ∧
       (businessInsightsCatch "API key").1 ≠ (businessInsightsCatch "rate limit").1 ∧
       (businessInsightsCatch "timeout").1 ≠ (businessInsightsCatch "rate limit").1) := by
  decide

/-- **C6 (amended).** Each known substring maps to its own distinct
error *message*; only `rate limit` gets a distinct status code (429),
while `API key` and `timeout` share 500. -/
theorem errorSubstrings_distinct_messages :
    businessInsightsCatch "API key" =
      (500, "OpenAI API key is invalid or has expired. Please check your API key configuration.") ∧
    businessInsightsCatch "timeout" =
      (500, "The request to generate business insights timed out. Please try again with a smaller repository.") ∧
    businessInsightsCatch "rate limit" =
      (429, "OpenAI rate limit reached. Please try again later.") ∧
    (businessInsightsCatch "API key").2 ≠ (businessInsightsCatch "timeout").2 ∧
    (businessInsightsCatch "API key").2 ≠ (businessInsightsCatch "rate limit").2 ∧
    (businessInsightsCatch "timeout").2 ≠ (businessInsightsCatch "rate limit").2 := by
  decide

/-- **C8.** On a null input, or an input whose `dependencies` field is
null/missing, the graph formatter returns the fixed placeholder graph —
4 nodes and 3 links — rather than failing. -/
theorem nullInput_yields_placeholder :
    generateDependencyGraph none = placeholderGraph ∧
    (∀ m : List String, generateDependencyGraph (some ⟨m, none⟩) = placeholderGraph) ∧
    placeholderGraph.nodes.length = 4 ∧ placeholderGraph.links.length = 3 :=
  ⟨rfl, fun _ => rfl, rfl, rfl⟩

/-- **C1 counterexample.** With `a.js` containing the literal text
`import './b'` (a side-effect import, no `from` clause), the scanner's
JS patterns match nothing: it returns the two files but *zero*
dependencies, and the graph formatter applied to that output produces
zero nodes and zero links — not the claimed 1 edge / 2 nodes / 1 link. -/
theorem sideEffectImport_extracts_nothing :
    analyzeFileRelationships demoSideEffectImport =
      { modules := ["a.js", "b.js"], dependencies := [] } ∧
    (analyzeFileRelationships demoSideEffectImport).dependencies ≠
      [⟨"a.js", "./b", "import"⟩] ∧
    generateDependencyGraph (some (toDepsObj (analyzeFileRelationships demoSideEffectImport))) =
      { nodes := [], links := [] } := by
  simp only [demoSideEffectImport, analyzeFileRelationships, processList, processEntry,
    scanList, scanEntry, subdirPass, relatedChain]
  decide

/-- **C1 (amended).** When `a.js` instead contains `import x from './b'`
— an import with a `from` clause — the scanner returns exactly the two
files and the single edge `{from: a.js, to: ./b, type: import}`, and the
graph formatter yields exactly two group-1 nodes (`a.js` and the
unresolved target `./b`) and one link whose source is `a.js` and whose
target is the unresolved string `./b` (not `b.js`). -/
theorem fromImport_pipeline :
    analyzeFileRelationships demoFromImport =
      { modules := ["a.js", "b.js"],
        dependencies := [⟨"a.js", "./b", "import"⟩] } ∧
    generateDependencyGraph (some (toDepsObj (analyzeFileRelationships demoFromImport))) =
      { nodes := [⟨"a.js", 1⟩, ⟨"./b", 1⟩],
        links := [⟨"a.js", "./b", 1⟩] } := by
  simp only [demoFromImport, analyzeFileRelationships, processList, processEntry,
    scanList, scanEntry, subdirPass, relatedChain]
  decide

/-- **C2 counterexample.** In a directory with three `.js` files and one
`.css` file, the stylesheet's extension is on the traversal allow-list,
yet the returned file list omits it (`processFile` records a file only
when the extension has an import pattern), so it is *not* “still
recorded as a file node”. -/
theorem cssFile_dropped_from_file_list :
    analyzeFileRelationships demoWithCss =
      { modules := ["a.js", "b.js", "c.js"], dependencies := [] } ∧
    sourceExtensions.contains (extOf "style.css") = true ∧
    "style.css" ∉ (analyzeFileRelationships demoWithCss).modules := by
  simp only [demoWithCss, analyzeFileRelationships, processList, processEntry,
    scanList, scanEntry, subdirPass, relatedChain]
  decide

/-- **C2 (amended).** A file whose extension is recognised by the
traversal but has no import-extraction pattern contributes zero
dependency edges *and is silently dropped from the file list* (only
files whose extension is outside the allow-list are recorded without
edges). -/
theorem patternlessRecognisedFile_dropped (pre name content : String)
    (hrec : extOf name ∈ sourceExtensions)
    (hnopat : patternsFor (extOf name) = none) :
    processEntry pre (.file name content) = ([], []) := by
  have hc : sourceExtensions.contains (extOf name) = true := by
    simpa using hrec
  simp only [processEntry, hc, Bool.true_or, if_true, processFileM, hnopat]
  split <;> rfl

/-- Witness for `patternlessRecognisedFile_dropped` at `style.css`. -/
theorem patternlessRecognisedFile_dropped_witness :
    extOf "style.css" ∈ sourceExtensions ∧
    patternsFor (extOf "style.css") = none ∧
    processEntry "" (.file "style.css" "body { color: red }") = ([], []) :=
  ⟨by decide, by decide,
    patternlessRecognisedFile_dropped "" "style.css" "body { color: red }"
      (by decide) (by decide)⟩

/-- **C5 counterexample.** `import fs from 'node:fs'` references an
external module whose captured target starts with neither `.` nor `/`,
yet the scanner emits an edge for it — the skip test also admits any
target containing `:`. -/
theorem colonTarget_emits_edge :
    (processFileM "a.js" "js" "import fs from 'node:fs'").2 =
      [⟨"a.js", "node:fs", "import"⟩] ∧
    strStartsWith "node:fs" "." = false ∧ strStartsWith "node:fs" "/" = false := by
  decide

/-- **C5 (amended).** An edge is emitted only when the trimmed captured
target starts with `.`, starts with `/`, *or contains `:`*; targets with
none of these (ordinary external package names) are dropped. -/
theorem emitted_target_local_or_colon (ps : List (List RAtom)) (content : List Char)
    (t : String) (ht : t ∈ extractTargets ps content) :
    t.data.head? = some '.' ∨ t.data.head? = some '/' ∨ containsSeq t.data [':'] = true := by
  simp only [extractTargets, List.mem_flatMap, List.mem_filterMap] at ht
  obtain ⟨p, -, cap, -, hcap⟩ := ht
  cases cap with
  | none => simp at hcap
  | some cs =>
    by_cases hnil : cs = []
    · simp [hnil] at hcap
    · simp only [hnil, if_false] at hcap
      split at hcap
      next h =>
        cases hcap
        rcases h with h | h | h
        · exact Or.inl h
        · exact Or.inr (Or.inl h)
        · exact Or.inr (Or.inr h)
      next => cases hcap

/-- Witness for `emitted_target_local_or_colon`: the target `./local`
extracted from a JS file. -/
theorem emitted_target_local_or_colon_witness :
    "./local" ∈ extractTargets jsPatterns ("import x from './local'".data) ∧
    ("./local".data.head? = some '.' ∨ "./local".data.head? = some '/' ∨
      containsSeq "./local".data [':'] = true) :=
  ⟨by decide,
    emitted_target_local_or_colon jsPatterns ("import x from './local'".data) "./local"
      (by decide)⟩

/-- **C10.** For a non-null dependencies array the formatter's node list
is exactly the first-occurrence deduplication of the edges' `from`/`to`
strings — the `modules` (files) field has no effect, a string appears as
a node id precisely when some edge mentions it, every node's group is
the extension-table value of its id, and there is one weight-1 link per
edge in order. -/
theorem formatter_nodes_from_edges_only (m₁ m₂ : List String) (l : List Dep) :
    generateDependencyGraph (some ⟨m₁, some l⟩) = generateDependencyGraph (some ⟨m₂, some l⟩) ∧
    (generateDependencyGraph (some ⟨m₁, some l⟩)).nodes.map GNode.id =
      uniqueFirst (l.flatMap (fun d => [d.dfrom, d.dto])) ∧
    (∀ x : String,
      (∃ nd ∈ (generateDependencyGraph (some ⟨m₁, some l⟩)).nodes, nd.id = x) ↔
      (∃ d ∈ l, x = d.dfrom ∨ x = d.dto)) ∧
    (∀ nd ∈ (generateDependencyGraph (some ⟨m₁, some l⟩)).nodes, nd.group = groupFor nd.id) ∧
    (generateDependencyGraph (some ⟨m₁, some l⟩)).links = l.map (fun d => ⟨d.dfrom, d.dto, 1⟩) := by
  refine ⟨rfl, ?_, ?_, ?_, rfl⟩
  · simp only [generateDependencyGraph, List.map_map]
    exact List.map_id _
  · intro x
    simp only [generateDependencyGraph]
    constructor
    · rintro ⟨nd, hnd, rfl⟩
      obtain ⟨f, hf, rfl⟩ := List.mem_map.mp hnd
      have hf2 := (mem_uniqueFirst f _).mp hf
      rw [List.mem_flatMap] at hf2
      obtain ⟨d, hd, hmem⟩ := hf2
      simp only [List.mem_cons, List.mem_singleton] at hmem
      rcases hmem with h | h | h
      · exact ⟨d, hd, Or.inl h⟩
      · exact ⟨d, hd, Or.inr h⟩
      · simp at h
    · rintro ⟨d, hd, h⟩
      refine ⟨⟨x, groupFor x⟩, List.mem_map.mpr ⟨x, ?_, rfl⟩, rfl⟩
      apply (mem_uniqueFirst x _).mpr
      rw [List.mem_flatMap]
      exact ⟨d, hd, by rcases h with h | h <;> simp [h]⟩
  · intro nd hnd
    simp only [generateDependencyGraph] at hnd
    obtain ⟨f, -, rfl⟩ := List.mem_map.mp hnd
    rfl

/-- **C9 counterexample.** The fallback tiers break the invariant: for
an empty checkout the traversal discovers no file at all, yet the
returned dataset contains edges — their `from` fields were never
discovered during traversal and their `to` fields come from no source
text.  A `build`-directory-only checkout likewise yields a tier-2
`related` edge whose `to` is a rescanned file path, not source text. -/
theorem fallbackEdges_break_invariant :
    processList "" ([] : List FSEntry) = ([], []) ∧
    scanList "" ([] : List FSEntry) = [] ∧
    (⟨"src/pages/index.tsx", "../components/ExampleComponent", "import"⟩ : Dep) ∈
      (analyzeFileRelationships []).dependencies ∧
    (analyzeFileRelationships
        [.dir "build" [.file "x.txt" "hello", .file "y.txt" "world"]]).dependencies =
      [⟨"build/x.txt", "build/y.txt", "related"⟩] := by
  refine ⟨rfl, rfl, by decide, ?_⟩
  simp only [analyzeFileRelationships, processList, processEntry, scanList, scanEntry,
    subdirPass, relatedChain]
  decide

/-- Every edge `processFileM` emits has the scanned file as `from`, type
`import`, and a `to` extracted from the file's content. -/
theorem processFileM_edges (rel ext content : String) (d : Dep)
    (hd : d ∈ (processFileM rel ext content).2) :
    d.dfrom ∈ (processFileM rel ext content).1 ∧ d.dtype = "import" ∧
    ∃ ps, patternsFor ext = some ps ∧ d.dto ∈ extractTargets ps content.data := by
  obtain hE | ⟨ps, hE⟩ : patternsFor ext = none ∨ ∃ ps, patternsFor ext = some ps := by
    cases patternsFor ext
    · exact Or.inl rfl
    · exact Or.inr ⟨_, rfl⟩
  · rw [processFileM, hE] at hd
    exact absurd hd (List.not_mem_nil d)
  · rw [processFileM, hE] at hd
    rw [processFileM, hE]
    obtain ⟨t, ht, rfl⟩ := List.mem_map.mp hd
    exact ⟨List.mem_singleton.mpr rfl, rfl, ps, rfl, ht⟩

/-- **C9 (amended).** For the regex-scan passes (the main traversal and
the subdirectory re-scan both run `processList`): every emitted edge's
`from` is a file recorded in the scan's own file list, its type is
`import`, and its `to` is one of the import targets extracted from the
source text of a file that exists in the scanned tree — no path
resolution and no existence check is applied to it.  (The tier-2
`related` edges and the tier-3 example edges do not satisfy this; see
the counterexample.) -/
theorem scanEdges_sound : ∀ (pre : String) (es : List FSEntry),
    ∀ d ∈ (processList pre es).2,
      d.dfrom ∈ (processList pre es).1 ∧ d.dtype = "import" ∧
      ∃ name content ps, listHasFile name content es = true ∧
        patternsFor (extOf name) = some ps ∧ d.dto ∈ extractTargets ps content.data := by
  refine processList.induct
    (fun pre e => ∀ d ∈ (processEntry pre e).2,
      d.dfrom ∈ (processEntry pre e).1 ∧ d.dtype = "import" ∧
      ∃ name content ps, listHasFile name content [e] = true ∧
        patternsFor (extOf name) = some ps ∧ d.dto ∈ extractTargets ps content.data)
    (fun pre es => ∀ d ∈ (processList pre es).2,
      d.dfrom ∈ (processList pre es).1 ∧ d.dtype = "import" ∧
      ∃ name content ps, listHasFile name content es = true ∧
        patternsFor (extOf name) = some ps ∧ d.dto ∈ extractTargets ps content.data)
    ?_ ?_ ?_ ?_ ?_ ?_ ?_ ?_
  · intro pre name content h d hd
    rw [processEntry, if_pos h] at hd
    cases hd
  · intro pre name content h1 ext h2 d hd
    rw [processEntry, if_neg h1, if_pos h2] at hd
    have := processFileM_edges (joinRel pre name) (extOf name) content d hd
    rw [processEntry, if_neg h1, if_pos h2]
    refine ⟨this.1, this.2.1, name, content, ?_⟩
    obtain ⟨ps, hps, hto⟩ := this.2.2
    exact ⟨ps, by simp [listHasFile], hps, hto⟩
  · intro pre name content h1 ext h2 d hd
    rw [processEntry, if_neg h1, if_neg h2] at hd
    cases hd
  · intro pre name children h d hd
    rw [processEntry, if_pos h] at hd
    cases hd
  · intro pre name children h1 h2 d hd
    rw [processEntry, if_neg h1, if_pos h2] at hd
    cases hd
  · intro pre name children h1 h2 ih d hd
    rw [processEntry, if_neg h1, if_neg h2] at hd
    rw [processEntry, if_neg h1, if_neg h2]
    obtain ⟨hfrom, htype, n, c, ps, hhas, hps, hto⟩ := ih d hd
    exact ⟨hfrom, htype, n, c, ps, by simp [listHasFile, hhas], hps, hto⟩
  · intro pre d hd
    cases hd
  · intro pre e es ihe ihes d hd
    rw [processList] at hd
    rw [processList]
    rcases List.mem_append.mp hd with h | h
    · obtain ⟨hfrom, htype, n, c, ps, hhas, hps, hto⟩ := ihe d h
      refine ⟨List.mem_append.mpr (Or.inl hfrom), htype, n, c, ps, ?_, hps, hto⟩
      cases e with
      | file en ec =>
        have h2 : en = n ∧ ec = c := by simpa [listHasFile] using hhas
        simp [listHasFile, h2]
      | dir en ech =>
        have h2 : listHasFile n c ech = true := by simpa [listHasFile] using hhas
        simp [listHasFile, h2]
    · obtain ⟨hfrom, htype, n, c, ps, hhas, hps, hto⟩ := ihes d h
      refine ⟨List.mem_append.mpr (Or.inr hfrom), htype, n, c, ps, ?_, hps, hto⟩
      cases e with
      | file en ec => simp [listHasFile, hhas]
      | dir en ech => simp [listHasFile, hhas]

/-- Witness for `scanEdges_sound`: the `./b` edge of the two-file
project. -/
theorem scanEdges_sound_witness :
    (⟨"a.js", "./b", "import"⟩ : Dep) ∈ (processList "" demoFromImport).2 ∧
    (⟨"a.js", "./b", "import"⟩ : Dep).dfrom ∈ (processList "" demoFromImport).1 := by
  have hmem : (⟨"a.js", "./b", "import"⟩ : Dep) ∈ (processList "" demoFromImport).2 := by
    simp only [demoFromImport, processList, processEntry]
    decide
  exact ⟨hmem, (scanEdges_sound "" demoFromImport _ hmem).1⟩

/-! ### The keyword scan: infrastructure for the monotonicity proof -/

theorem jsTokenFacts : TokenFacts jsKeywords := by
  constructor <;> decide

theorem pyTokenFacts : TokenFacts pyKeywords := by
  constructor <;> decide

theorem tokAt_some {T : List (List Char)} {s t : List Char}
    (h : tokAt T s = some t) : t ∈ T ∧ t <+: s := by
  refine ⟨List.mem_of_find?_eq_some h, ?_⟩
  have h2 := List.find?_some h
  simp only at h2
  exact List.isPrefixOf_iff_prefix.mp h2

theorem tokAt_none {T : List (List Char)} {s : List Char}
    (h : tokAt T s = none) : ∀ t ∈ T, ¬ t <+: s := by
  intro t ht hpre
  have := List.find?_eq_none.mp h t ht
  exact this (List.isPrefixOf_iff_prefix.mpr hpre)

/-- A prefix of `a ++ b` no longer than `a` is a prefix of `a`. -/
theorem prefix_of_append_of_le {a b l : List Char}
    (h : l <+: a ++ b) (hl : l.length ≤ a.length) : l <+: a := by
  obtain ⟨r, hr⟩ := h
  have h1 : l = (a ++ b).take l.length := by rw [← hr, List.take_left]
  have h2 : (a ++ b).take l.length = a.take l.length := by
    rw [List.take_append_eq_append_take, Nat.sub_eq_zero_of_le hl, List.take_zero,
      List.append_nil]
  rw [h1, h2]
  exact List.take_prefix _ _

/-- Two tokens matching at the same position are the same token. -/
theorem tokAt_unique (F : TokenFacts T) {s t₁ t₂ : List Char}
    (h₁ : t₁ ∈ T) (h₂ : t₂ ∈ T) (p₁ : t₁ <+: s) (p₂ : t₂ <+: s) : t₁ = t₂ := by
  rcases List.prefix_or_prefix_of_prefix p₁ p₂ with h | h
  · exact F.nopre t₁ h₁ t₂ h₂ (List.isPrefixOf_iff_prefix.mpr h)
  · exact (F.nopre t₂ h₂ t₁ h₁ (List.isPrefixOf_iff_prefix.mpr h)).symm

/-- If some token matches at the head of `s`, the scan's `find?` returns
exactly that token. -/
theorem tokAt_eq_of_prefix (F : TokenFacts T) {s t : List Char}
    (ht : t ∈ T) (hp : t <+: s) : tokAt T s = some t := by
  cases h : tokAt T s with
  | none => exact absurd hp (tokAt_none h t ht)
  | some t₀ =>
    obtain ⟨ht₀, hp₀⟩ := tokAt_some h
    rw [tokAt_unique F ht₀ ht hp₀ hp]

theorem tok_len_pos (F : TokenFacts T) {t : List Char} (ht : t ∈ T) : 1 ≤ t.length := by
  cases t with
  | nil => exact absurd rfl (F.ne [] ht)
  | cons c cs => simp

/-- Fuel irrelevance for the keyword scan. -/
theorem cntF_stable {T : List (List Char)} (F : TokenFacts T) :
    ∀ (n : Nat) (s : List Char), s.length ≤ n → ∀ m, s.length ≤ m →
      cntF T n s = cntF T m s := by
  intro n
  induction n with
  | zero =>
    intro s hs m _
    have : s = [] := List.eq_nil_of_length_eq_zero (Nat.le_zero.mp hs)
    subst this
    cases m <;> rfl
  | succ n ih =>
    intro s hs m hm
    cases s with
    | nil => cases m <;> rfl
    | cons c s' =>
      cases m with
      | zero => simp at hm
      | succ m' =>
        simp only [List.length_cons] at hs hm
        rw [cntF, cntF]
        cases htok : tokAt T (c :: s') with
        | none =>
          exact ih s' (by omega) m' (by omega)
        | some t =>
          have hlen := tok_len_pos F (tokAt_some htok).1
          show 1 + cntF T n ((c :: s').drop t.length) = 1 + cntF T m' ((c :: s').drop t.length)
          have hd : ((c :: s').drop t.length).length ≤ s'.length := by
            simp only [List.length_drop, List.length_cons]
            omega
          have hn : s'.length ≤ n := by omega
          have hm2 : s'.length ≤ m' := by omega
          rw [ih _ (le_trans hd hn) m' (le_trans hd hm2)]

theorem cnt_cons_some {T : List (List Char)} (F : TokenFacts T) {c : Char}
    {s' t : List Char} (htok : tokAt T (c :: s') = some t) :
    cnt T (c :: s') = 1 + cnt T ((c :: s').drop t.length) := by
  have hlen := tok_len_pos F (tokAt_some htok).1
  show cntF T (c :: s').length (c :: s') = _
  simp only [List.length_cons]
  rw [cntF, htok]
  show 1 + cntF T s'.length ((c :: s').drop t.length) = 1 + cnt T ((c :: s').drop t.length)
  congr 1
  have hd : ((c :: s').drop t.length).length ≤ s'.length := by
    simp only [List.length_drop, List.length_cons]
    omega
  exact cntF_stable F s'.length _ hd _ (le_refl _)

theorem cnt_cons_none {T : List (List Char)} {c : Char} {s' : List Char}
    (htok : tokAt T (c :: s') = none) : cnt T (c :: s') = cnt T s' := by
  show cntF T (c :: s').length (c :: s') = _
  simp only [List.length_cons]
  rw [cntF, htok]
  rfl

/-- A token occurring inside another token at a positive offset reaches
exactly to its end. -/
theorem contained_aligned (F : TokenFacts T) {t t' : List Char} {j : Nat}
    (ht : t ∈ T) (ht' : t' ∈ T) (hj : 1 ≤ j) (hp : t' <+: t.drop j) :
    j + t'.length = t.length := by
  by_cases hjt : j < t.length
  · have hj6 : j < 6 := lt_of_lt_of_le hjt (F.len6 t ht)
    exact F.subAligned t ht t' ht' j hj6 hj (List.isPrefixOf_iff_prefix.mpr hp)
  · push_neg at hjt
    rw [List.drop_eq_nil_of_le hjt] at hp
    exact absurd (List.prefix_nil.mp hp) (F.ne t' ht')

/-- A token matching across the boundary into an inserted `['i','f']`
either fits before it, or consumes it exactly (and is then the token
carrying `if` as a suffix, such as Python's `elif`). -/
theorem cross_if (F : TokenFacts T) {t' w v : List Char}
    (ht' : t' ∈ T) (hw : w ≠ []) (hp : t' <+: w ++ 'i' :: 'f' :: v) :
    t'.length ≤ w.length ∨ t' = w ++ ['i', 'f'] := by
  by_cases hlen : t'.length ≤ w.length
  · exact Or.inl hlen
  push_neg at hlen
  have hwp : w <+: t' :=
    List.prefix_of_prefix_length_le (List.prefix_append w _) hp (le_of_lt hlen)
  obtain ⟨r, hr⟩ := hwp
  have hrp : r <+: 'i' :: 'f' :: v := by
    rw [← hr] at hp
    exact (List.prefix_append_right_inj w).mp hp
  cases r with
  | nil =>
    rw [List.append_nil] at hr
    rw [hr] at hlen
    omega
  | cons x r₂ =>
    have hx : x = 'i' := (List.cons_prefix_cons.mp hrp).1
    cases r₂ with
    | nil =>
      exfalso
      apply F.noEndI t' ht'
      rw [← hr, hx]
      exact List.getLast?_concat w
    | cons y r₃ =>
      have hy : y = 'f' := (List.cons_prefix_cons.mp (List.cons_prefix_cons.mp hrp).2).1
      have hdrop : t'.drop w.length = x :: y :: r₃ := by
        rw [← hr, List.drop_left]
      have hif : ['i', 'f'].isPrefixOf (t'.drop w.length) = true := by
        rw [hdrop, hx, hy, List.isPrefixOf_iff_prefix]
        exact List.cons_prefix_cons.mpr ⟨rfl, List.cons_prefix_cons.mpr ⟨rfl, List.nil_prefix⟩⟩
      have hw6 : w.length < 6 := lt_of_lt_of_le hlen (F.len6 t' ht')
      have hw1 : 1 ≤ w.length := by
        cases w with
        | nil => exact absurd rfl hw
        | cons _ _ => simp
      have hfin := F.ifInside t' ht' w.length hw6 hw1 hif
      right
      rw [← hr] at hfin ⊢
      rw [List.drop_left] at hfin
      rw [hfin]

/-- Scanning the proper suffix of a token followed by `rest` finds at
most one more match than scanning `rest` alone. -/
theorem cnt_suffix_walk (F : TokenFacts T) {t rest : List Char} (ht : t ∈ T)
    (ihD : ∀ k, cnt T (rest.drop k) ≤ cnt T rest) :
    ∀ m j, 1 ≤ j → t.length - j ≤ m → cnt T (t.drop j ++ rest) ≤ 1 + cnt T rest := by
  intro m
  induction m with
  | zero =>
    intro j _ hle
    have hnil : t.drop j = [] := List.drop_eq_nil_of_le (by omega)
    rw [hnil, List.nil_append]
    exact Nat.le_add_left _ 1
  | succ m ih =>
    intro j hj hle
    by_cases hjt : t.length ≤ j
    · have hnil : t.drop j = [] := List.drop_eq_nil_of_le hjt
      rw [hnil, List.nil_append]
      exact Nat.le_add_left _ 1
    · push_neg at hjt
      cases hdj : t.drop j with
      | nil =>
        have := congrArg List.length hdj
        simp only [List.length_drop, List.length_nil] at this
        omega
      | cons d ds =>
        rw [List.cons_append]
        cases htok : tokAt T (d :: (ds ++ rest)) with
        | none =>
          rw [cnt_cons_none htok]
          have hds : ds ++ rest = t.drop (j + 1) ++ rest := by
            have h2 : t.drop (j + 1) = (t.drop j).drop 1 := by
              rw [List.drop_drop]
            rw [h2, hdj]
            rfl
          rw [hds]
          exact ih (j + 1) (by omega) (by omega)
        | some t'' =>
          rw [cnt_cons_some F htok]
          obtain ⟨ht''m, ht''p⟩ := tokAt_some htok
          have ht''p2 : t'' <+: t.drop j ++ rest := by
            rw [hdj, List.cons_append]
            exact ht''p
          by_cases hsz : t''.length ≤ (t.drop j).length
          · have hfits : t'' <+: t.drop j := prefix_of_append_of_le ht''p2 hsz
            have hal := contained_aligned F ht ht''m hj hfits
            have hrw : (d :: (ds ++ rest)).drop t''.length = rest := by
              rw [← List.cons_append, ← hdj]
              have hlen2 : (t.drop j).length = t''.length := by
                rw [List.length_drop]
                omega
              rw [← hlen2, List.drop_left]
            rw [hrw]
          · push_neg at hsz
            have hwp : t.drop j <+: t'' :=
              List.prefix_of_prefix_length_le (List.prefix_append _ _) ht''p2 (le_of_lt hsz)
            obtain ⟨r'', hr''⟩ := hwp
            have hrp : r'' <+: rest := by
              rw [← hr''] at ht''p2
              exact (List.prefix_append_right_inj _).mp ht''p2
            have hdrop2 : (d :: (ds ++ rest)).drop t''.length = rest.drop r''.length := by
              rw [← List.cons_append, ← hdj, ← hr'', List.drop_append_eq_append_drop,
                List.length_append, List.drop_eq_nil_of_le (by omega), List.nil_append]
              congr 1
              omega
            rw [hdrop2]
            exact Nat.add_le_add_left (ihD r''.length) 1

/-- Dropping characters from the front never increases the keyword
count. -/
theorem cnt_drop_le_aux (F : TokenFacts T) :
    ∀ (n : Nat) (s : List Char), s.length ≤ n → ∀ k, cnt T (s.drop k) ≤ cnt T s := by
  intro n
  induction n with
  | zero =>
    intro s hs k
    have : s = [] := List.eq_nil_of_length_eq_zero (Nat.le_zero.mp hs)
    subst this
    rw [List.drop_nil]
  | succ n ih =>
    intro s hs k
    cases k with
    | zero => rw [List.drop_zero]
    | succ k' =>
      cases s with
      | nil => rw [List.drop_nil]
      | cons c s' =>
        have h1 : (c :: s').drop (k' + 1) = s'.drop k' := rfl
        rw [h1]
        simp only [List.length_cons] at hs
        have hs' : s'.length ≤ n := by omega
        have htail : cnt T s' ≤ cnt T (c :: s') := by
          cases htok : tokAt T (c :: s') with
          | none => rw [cnt_cons_none htok]
          | some t =>
            rw [cnt_cons_some F htok]
            obtain ⟨htm, htp⟩ := tokAt_some htok
            obtain ⟨rest, hrest⟩ := htp
            have htl := tok_len_pos F htm
            have hdropt : (c :: s').drop t.length = rest := by
              rw [← hrest, List.drop_left]
            rw [hdropt]
            have hrlen : rest.length ≤ n := by
              have := congrArg List.length hrest
              simp only [List.length_append, List.length_cons] at this
              omega
            have hs'eq : s' = t.drop 1 ++ rest := by
              have h2 : (c :: s').drop 1 = s' := rfl
              rw [← h2, ← hrest, List.drop_append_eq_append_drop,
                Nat.sub_eq_zero_of_le htl, List.drop_zero]
            rw [hs'eq]
            exact cnt_suffix_walk F htm (fun k => ih rest hrlen k) t.length 1
              (le_refl 1) (by omega)
        exact le_trans (ih s' hs' k') htail

theorem cnt_drop_le (F : TokenFacts T) (s : List Char) (k : Nat) :
    cnt T (s.drop k) ≤ cnt T s :=
  cnt_drop_le_aux F s.length s (le_refl _) k

theorem prefix_drop {u t : List Char} (h : u <+: t) (j : Nat) :
    u.drop j <+: t.drop j := by
  obtain ⟨r, rfl⟩ := h
  rw [List.drop_append_eq_append_drop]
  exact List.prefix_append _ _

/-- The head token of the two keyword lists is `if`, so a scan standing
right on the inserted `if` counts it. -/
theorem cnt_if_head (F : TokenFacts T) (v : List Char) :
    cnt T ('i' :: 'f' :: v) = 1 + cnt T v := by
  have hifT : ['i', 'f'] ∈ T := by
    cases hT : T with
    | nil =>
      have := F.headIf
      rw [hT] at this
      simp at this
    | cons t₀ T' =>
      have := F.headIf
      rw [hT] at this
      simp only [List.head?_cons, Option.some.injEq] at this
      rw [← this]
      exact List.mem_cons_self _ _
  have htok : tokAt T ('i' :: 'f' :: v) = some ['i', 'f'] :=
    tokAt_eq_of_prefix F hifT
      (List.cons_prefix_cons.mpr ⟨rfl, List.cons_prefix_cons.mpr ⟨rfl, List.nil_prefix⟩⟩)
  rw [cnt_cons_some F htok]
  rfl

/-- Walking the new string through the remainder of a token the old
scan was inside: no token matches until the inserted `if` is reached,
which is then counted, and the scan resumes at `v`. -/
theorem walk_to_if (F : TokenFacts T) {t u v : List Char} (ht : t ∈ T)
    (hu : u <+: t) (hul : u.length < t.length) :
    ∀ m j, 1 ≤ j → u.length - j ≤ m →
      cnt T (u.drop j ++ 'i' :: 'f' :: v) = 1 + cnt T v := by
  intro m
  induction m with
  | zero =>
    intro j hj hle
    have hnil : u.drop j = [] := List.drop_eq_nil_of_le (by omega)
    rw [hnil, List.nil_append, cnt_if_head F]
  | succ m ih =>
    intro j hj hle
    by_cases hju : u.length ≤ j
    · have hnil : u.drop j = [] := List.drop_eq_nil_of_le hju
      rw [hnil, List.nil_append, cnt_if_head F]
    · push_neg at hju
      cases hdj : u.drop j with
      | nil =>
        have := congrArg List.length hdj
        simp only [List.length_drop, List.length_nil] at this
        omega
      | cons d ds =>
        rw [List.cons_append]
        cases htok : tokAt T (d :: (ds ++ 'i' :: 'f' :: v)) with
        | none =>
          rw [cnt_cons_none htok]
          have hds : ds ++ 'i' :: 'f' :: v = u.drop (j + 1) ++ 'i' :: 'f' :: v := by
            have h2 : u.drop (j + 1) = (u.drop j).drop 1 := by
              rw [List.drop_drop]
            rw [h2, hdj]
            rfl
          rw [hds]
          exact ih (j + 1) (by omega) (by omega)
        | some t₂ =>
          exfalso
          obtain ⟨ht₂m, ht₂p⟩ := tokAt_some htok
          have ht₂p2 : t₂ <+: u.drop j ++ 'i' :: 'f' :: v := by
            rw [hdj, List.cons_append]
            exact ht₂p
          have hwne : u.drop j ≠ [] := by rw [hdj]; simp
          rcases cross_if F ht₂m hwne ht₂p2 with h2 | h2
          · -- t₂ sits inside `t` at a positive offset but ends too early
            have hfits : t₂ <+: u.drop j := prefix_of_append_of_le ht₂p2 h2
            have ht₂t : t₂ <+: t.drop j := hfits.trans (prefix_drop hu j)
            have hal := contained_aligned F ht ht₂m hj ht₂t
            rw [List.length_drop] at h2
            omega
          · -- t₂ would carry `if` as a suffix with its prefix inside `t`
            have hm1 : 1 ≤ (u.drop j).length := by rw [hdj]; simp
            have hm6 : (u.drop j).length < 6 := by
              rw [List.length_drop]
              have := F.len6 t ht
              omega
            have hdropt₂ : t₂.drop (u.drop j).length = ['i', 'f'] := by
              rw [h2, List.drop_left]
            have htk : t₂.take (u.drop j).length = u.drop j := by
              rw [h2, List.take_left]
            have hfalse := F.crossTake t₂ ht₂m (u.drop j).length hm6 hm1 hdropt₂ t ht j
              (by have := F.len6 t ht; omega) hj
            rw [htk] at hfalse
            have htrue : (u.drop j).isPrefixOf (t.drop j) = true :=
              List.isPrefixOf_iff_prefix.mpr (prefix_drop hu j)
            rw [htrue] at hfalse
            cases hfalse

/-- Walking the old string through the proper prefix that the inserted
`if` completed into a token (such as `el` before `elif`): nothing
matches inside it, so the old scan simply reaches `v`. -/
theorem walk_plain (F : TokenFacts T) {t₂ u v : List Char} (ht₂ : t₂ ∈ T)
    (hu : t₂ = u ++ ['i', 'f']) (hul : 1 ≤ u.length) :
    ∀ m j, 1 ≤ j → u.length - j ≤ m → cnt T (u.drop j ++ v) = cnt T v := by
  intro m
  induction m with
  | zero =>
    intro j hj hle
    have hnil : u.drop j = [] := List.drop_eq_nil_of_le (by omega)
    rw [hnil, List.nil_append]
  | succ m ih =>
    intro j hj hle
    by_cases hju : u.length ≤ j
    · have hnil : u.drop j = [] := List.drop_eq_nil_of_le hju
      rw [hnil, List.nil_append]
    · push_neg at hju
      cases hdj : u.drop j with
      | nil =>
        have := congrArg List.length hdj
        simp only [List.length_drop, List.length_nil] at this
        omega
      | cons d ds =>
        rw [List.cons_append]
        cases htok : tokAt T (d :: (ds ++ v)) with
        | none =>
          rw [cnt_cons_none htok]
          have hds : ds ++ v = u.drop (j + 1) ++ v := by
            have h2 : u.drop (j + 1) = (u.drop j).drop 1 := by
              rw [List.drop_drop]
            rw [h2, hdj]
            rfl
          rw [hds]
          exact ih (j + 1) (by omega) (by omega)
        | some t₃ =>
          exfalso
          obtain ⟨ht₃m, ht₃p⟩ := tokAt_some htok
          -- any token matching here starts with the character `t₂[j]`,
          -- which no token starts with
          have hm1 : 1 ≤ u.length := hul
          have hm6 : u.length < 6 := by
            have h6 := F.len6 t₂ ht₂
            have := congrArg List.length hu
            simp only [List.length_append, List.length_cons, List.length_nil] at this
            omega
          have hdropt₂ : t₂.drop u.length = ['i', 'f'] := by
            rw [hu, List.drop_left]
          have hhead := F.headChar t₂ ht₂ u.length hm6 hm1 hdropt₂ j hju hj t₃ ht₃m
          apply hhead
          have h5 : t₂.drop j = u.drop j ++ ['i', 'f'] := by
            rw [hu, List.drop_append_eq_append_drop, Nat.sub_eq_zero_of_le (le_of_lt hju),
              List.drop_zero]
          rw [h5, hdj]
          cases t₃ with
          | nil => exact absurd rfl (F.ne [] ht₃m)
          | cons e t₃' =>
            have := (List.cons_prefix_cons.mp ht₃p).1
            rw [this]
            rfl

/-- **Insertion monotonicity of the keyword scan.**  Inserting the two
characters `if` anywhere in a string never decreases the number of
keyword matches. -/
theorem cnt_insert_if_aux (F : TokenFacts T) :
    ∀ (n : Nat) (u : List Char), u.length ≤ n →
      ∀ v, cnt T (u ++ v) ≤ cnt T (u ++ 'i' :: 'f' :: v) := by
  intro n
  induction n with
  | zero =>
    intro u hu v
    have : u = [] := List.eq_nil_of_length_eq_zero (Nat.le_zero.mp hu)
    subst this
    rw [List.nil_append, List.nil_append, cnt_if_head F]
    exact Nat.le_add_left _ 1
  | succ n ih =>
    intro u hu v
    cases u with
    | nil =>
      rw [List.nil_append, List.nil_append, cnt_if_head F]
      exact Nat.le_add_left _ 1
    | cons c u' =>
      rw [List.cons_append, List.cons_append]
      simp only [List.length_cons] at hu
      cases htokold : tokAt T (c :: (u' ++ v)) with
      | some t =>
        obtain ⟨htm, htp⟩ := tokAt_some htokold
        have htl := tok_len_pos F htm
        have htp0 : t <+: (c :: u') ++ v := by
          rw [List.cons_append]
          exact htp
        by_cases hlen : t.length ≤ u'.length + 1
        · -- the match fits inside `c :: u'`: both scans take it
          have htpu : t <+: c :: u' :=
            prefix_of_append_of_le htp0 (by simpa using hlen)
          have htoknew : tokAt T (c :: (u' ++ 'i' :: 'f' :: v)) = some t := by
            apply tokAt_eq_of_prefix F htm
            rw [← List.cons_append]
            exact htpu.trans (List.prefix_append _ _)
          rw [cnt_cons_some F htokold, cnt_cons_some F htoknew]
          have hd1 : (c :: (u' ++ v)).drop t.length = (c :: u').drop t.length ++ v := by
            rw [← List.cons_append, List.drop_append_eq_append_drop,
              Nat.sub_eq_zero_of_le (by simpa using hlen), List.drop_zero]
          have hd2 : (c :: (u' ++ 'i' :: 'f' :: v)).drop t.length =
              (c :: u').drop t.length ++ 'i' :: 'f' :: v := by
            rw [← List.cons_append, List.drop_append_eq_append_drop,
              Nat.sub_eq_zero_of_le (by simpa using hlen), List.drop_zero]
          rw [hd1, hd2]
          have hdlen : ((c :: u').drop t.length).length ≤ n := by
            simp only [List.length_drop, List.length_cons]
            omega
          exact Nat.add_le_add_left (ih _ hdlen v) 1
        · -- the old match crosses into `v`
          push_neg at hlen
          rw [cnt_cons_some F htokold]
          have hd1 : (c :: (u' ++ v)).drop t.length = v.drop (t.length - (u'.length + 1)) := by
            rw [← List.cons_append, List.drop_append_eq_append_drop,
              List.drop_eq_nil_of_le (by simp only [List.length_cons]; omega), List.nil_append]
            simp only [List.length_cons]
          rw [hd1]
          cases htoknew : tokAt T (c :: (u' ++ 'i' :: 'f' :: v)) with
          | some t₂ =>
            obtain ⟨ht₂m, ht₂p⟩ := tokAt_some htoknew
            have ht₂p2 : t₂ <+: (c :: u') ++ 'i' :: 'f' :: v := by
              rw [List.cons_append]
              exact ht₂p
            rcases cross_if F ht₂m (by simp) ht₂p2 with h2 | h2
            · exfalso
              have ht₂pu : t₂ <+: c :: u' := prefix_of_append_of_le ht₂p2 h2
              have ht₂old : t₂ <+: c :: (u' ++ v) := by
                rw [← List.cons_append]
                exact ht₂pu.trans (List.prefix_append _ _)
              have heq := tokAt_unique F htm ht₂m htp ht₂old
              have := congrArg List.length heq
              simp only [List.length_cons] at h2
              omega
            · rw [cnt_cons_some F htoknew]
              have hd2 : (c :: (u' ++ 'i' :: 'f' :: v)).drop t₂.length = v := by
                rw [← List.cons_append,
                  show (c :: u') ++ 'i' :: 'f' :: v = ((c :: u') ++ ['i', 'f']) ++ v by
                    rw [List.append_assoc]; rfl,
                  ← h2, List.drop_left]
              rw [hd2]
              exact Nat.add_le_add_left (cnt_drop_le F v _) 1
          | none =>
            rw [cnt_cons_none htoknew]
            have hupre : c :: u' <+: t := by
              apply List.prefix_of_prefix_length_le _ htp0 (by simp only [List.length_cons]; omega)
              exact List.prefix_append _ _
            have hwalk := walk_to_if (v := v) F htm hupre (by simp only [List.length_cons]; omega)
              (u'.length + 1) 1 (le_refl 1) (by simp only [List.length_cons]; omega)
            have h3 : u' ++ 'i' :: 'f' :: v = (c :: u').drop 1 ++ 'i' :: 'f' :: v := rfl
            rw [h3, hwalk]
            exact Nat.add_le_add_left (cnt_drop_le F v _) 1
      | none =>
        rw [cnt_cons_none htokold]
        cases htoknew : tokAt T (c :: (u' ++ 'i' :: 'f' :: v)) with
        | none =>
          rw [cnt_cons_none htoknew]
          exact ih u' (by omega) v
        | some t₂ =>
          obtain ⟨ht₂m, ht₂p⟩ := tokAt_some htoknew
          have ht₂p2 : t₂ <+: (c :: u') ++ 'i' :: 'f' :: v := by
            rw [List.cons_append]
            exact ht₂p
          rcases cross_if F ht₂m (by simp) ht₂p2 with h2 | h2
          · exfalso
            have ht₂pu : t₂ <+: c :: u' := prefix_of_append_of_le ht₂p2 h2
            have ht₂old : t₂ <+: c :: (u' ++ v) := by
              rw [← List.cons_append]
              exact ht₂pu.trans (List.prefix_append _ _)
            exact absurd ht₂old (tokAt_none htokold t₂ ht₂m)
          · rw [cnt_cons_some F htoknew]
            have hd2 : (c :: (u' ++ 'i' :: 'f' :: v)).drop t₂.length = v := by
              rw [← List.cons_append,
                show (c :: u') ++ 'i' :: 'f' :: v = ((c :: u') ++ ['i', 'f']) ++ v by
                  rw [List.append_assoc]; rfl,
                ← h2, List.drop_left]
            rw [hd2]
            have hwalk := walk_plain (v := v) F ht₂m h2 (by simp)
              (u'.length + 1) 1 (le_refl 1) (by simp)
            have h4 : u' ++ v = (c :: u').drop 1 ++ v := rfl
            rw [h4, hwalk]
            exact Nat.le_add_left _ 1

/-- Inserting `if` never decreases the keyword-scan count. -/
theorem cnt_insert_if (F : TokenFacts T) (u v : List Char) :
    cnt T (u ++ v) ≤ cnt T (u ++ 'i' :: 'f' :: v) :=
  cnt_insert_if_aux F u.length u (le_refl _) v

/-- **C7.** The complexity score reported by `analyzeFileComplexity` is
monotonic in the keyword occurrences: for every file (any extension
bucket — JS/TS family, Python, Java, or the zero-score default) and
every content, inserting one more occurrence of `if` at any position
never decreases the reported complexity. -/
theorem complexity_monotone_insert_if (filePath : String) (u v : List Char) :
    (analyzeFileComplexityM filePath (String.mk (u ++ v))).complexity ≤
    (analyzeFileComplexityM filePath (String.mk (u ++ 'i' :: 'f' :: v))).complexity := by
  show decisionCount (extOf filePath) (u ++ v) ≤
    decisionCount (extOf filePath) (u ++ 'i' :: 'f' :: v)
  unfold decisionCount
  split
  · exact cnt_insert_if jsTokenFacts u v
  · split
    · exact cnt_insert_if pyTokenFacts u v
    · split
      · exact cnt_insert_if jsTokenFacts u v
      · exact le_refl 0

end Repotronium
